import Mathlib

/-!
Verification of the GeeOS early boot-time memory subsystem (`src/memory.c`,
`include/memory.h`).  The C code is shallowly embedded: `uint32_t` values are
natural numbers reduced modulo `2 ^ 32` exactly where the C arithmetic can
wrap, byte/word stores become `Function.update` on total functions, and the
two unbounded C loops (the heap free-list walk and the multiboot tag walk) are
given an explicit fuel argument; running out of fuel yields `none`, which
corresponds to the C loop still running.
-/

set_option maxRecDepth 2000

namespace GeeOS

/-! ### Constants and macros from `memory.h` -/

def PAGE_SIZE : Nat := 4096

def MAX_MEMORY_REGIONS : Nat := 32

def PAGE_PRESENT : Nat := 0x1

def PAGE_WRITABLE : Nat := 0x2

def PAGE_USER : Nat := 0x4

def KERNEL_HEAP_SIZE : Nat := 0x100000

/-- `KERNEL_HEAP_END = KERNEL_HEAP_START + KERNEL_HEAP_SIZE` where
`KERNEL_HEAP_START` is the link-time address `&kernel_end` (a `uint32_t`),
so the sum is 32-bit arithmetic.  `kernelEnd` is the model parameter standing
for `(uint32_t)&kernel_end`. -/
def KERNEL_HEAP_END (kernelEnd : Nat) : Nat := (kernelEnd + KERNEL_HEAP_SIZE) % 2 ^ 32

/-- `ALIGN8(x) = (((x) + 7) & ~7)` on `uint32_t`: the addition can wrap, and
`~7` is the 32-bit mask `0xFFFFFFF8`. -/
def ALIGN8 (x : Nat) : Nat := ((x + 7) % 2 ^ 32) &&& 0xFFFFFFF8

/-- 32-bit wraparound subtraction `a - b` of two `uint32_t` values
(`a`, `b` are assumed `< 2 ^ 32` where it matters). -/
def sub32 (a b : Nat) : Nat := (a + 2 ^ 32 - b % 2 ^ 32) % 2 ^ 32

/-- `BITMAP_SET(bitmap, bit)`: `bitmap[(bit)/8] |= (1 << ((bit)%8))`.
The bitmap is modelled as a total function from byte index to byte value. -/
def bitmapSet (bm : Nat → Nat) (bit : Nat) : Nat → Nat :=
  Function.update bm (bit / 8) (bm (bit / 8) ||| (1 <<< (bit % 8)))

/-- `BITMAP_CLEAR(bitmap, bit)`: `bitmap[(bit)/8] &= ~(1 << ((bit)%8))`;
the `int` complement truncated to the `uint8_t` cell is `0xFF ^^^ mask`. -/
def bitmapClear (bm : Nat → Nat) (bit : Nat) : Nat → Nat :=
  Function.update bm (bit / 8) (bm (bit / 8) &&& (0xFF ^^^ (1 <<< (bit % 8))))

/-- `BITMAP_TEST(bitmap, bit)`: `bitmap[(bit)/8] & (1 << ((bit)%8))`,
used by the C code as a truth value, hence modelled as its non-zeroness. -/
def bitmapTest (bm : Nat → Nat) (bit : Nat) : Bool :=
  bm (bit / 8) &&& (1 <<< (bit % 8)) != 0

/-! ### Physical frame allocator (`alloc_page` / `free_page`)

The allocator's global state in `memory.c` is `page_bitmap`, `total_pages`
and `memory_start`; they are bundled into one state record. -/

structure FrameState where
  bitmap : Nat → Nat
  total_pages : Nat
  memory_start : Nat

/-- `alloc_page`: linear scan for the first clear bit `i < total_pages`;
sets it and returns `memory_start + i * PAGE_SIZE` (32-bit arithmetic);
returns `NULL` (here `none`) when every bit is set. -/
def alloc_page (s : FrameState) : Option Nat × FrameState :=
  match (List.range s.total_pages).find? (fun i => !bitmapTest s.bitmap i) with
  | some i =>
      (some ((s.memory_start + i * PAGE_SIZE) % 2 ^ 32), { s with bitmap := bitmapSet s.bitmap i })
  | none => (none, s)

/-- `free_page(addr)`: `page_index = ((uint32_t)addr - memory_start) / PAGE_SIZE`
(32-bit wraparound subtraction), clear the bit when `page_index < total_pages`,
otherwise do nothing. -/
def free_page (s : FrameState) (addr : Nat) : FrameState :=
  let page_index := sub32 addr s.memory_start / PAGE_SIZE
  if page_index < s.total_pages then { s with bitmap := bitmapClear s.bitmap page_index } else s

/-- Iterate `alloc_page` `k` times, keeping only the state. -/
def allocReps : FrameState → Nat → FrameState
  | s, 0 => s
  | s, k + 1 => allocReps (alloc_page s).snd k

/-- The result of the `(k+1)`-th allocation, after `k` prior allocations. -/
def nthAllocResult (s : FrameState) (k : Nat) : Option Nat :=
  (alloc_page (allocReps s k)).fst

/-- A frame allocator with `n` frames, all free (every bitmap byte zero). -/
def allFreeState (n ms : Nat) : FrameState := ⟨fun _ => 0, n, ms⟩

/-! ### Address space manager (`map_page_with_directory`, `setup_paging`)

A `MachineState` holds the frame allocator, the page directory being operated
on (1024 `uint32_t` entries, as a function from index to entry), and the
memory holding page tables, as a map from a table's physical base address to
its 1024-entry contents. -/

structure MachineState where
  frames : FrameState
  pd : Nat → Nat
  tables : Nat → Nat → Nat

/-- `map_page_with_directory(pd, vaddr, paddr, flags)` from `memory.c`.
`vaddr`, `paddr`, `flags` are `uint32_t` parameters (values `< 2 ^ 32`).
When the directory slot is not present the code calls `alloc_page()` and uses
the returned pointer without a NULL check: the model keeps that behaviour by
taking the address `0` for a failed allocation, zero-filling the "table" at
address 0 and installing it, exactly as the store through the null pointer
would. -/
def map_page_with_directory (s : MachineState) (vaddr paddr flags : Nat) : MachineState :=
  let pd_index := vaddr >>> 22
  let pt_index := (vaddr >>> 12) &&& 0x3FF
  let pte := ((paddr &&& 0xFFFFF000) ||| flags) ||| PAGE_PRESENT
  if s.pd pd_index &&& PAGE_PRESENT ≠ 0 then
    let tb := s.pd pd_index &&& 0xFFFFF000
    { s with tables := Function.update s.tables tb (Function.update (s.tables tb) pt_index pte) }
  else
    let base := (alloc_page s.frames).fst.getD 0
    { frames := (alloc_page s.frames).snd,
      pd := Function.update s.pd pd_index (((base &&& 0xFFFFF000) ||| flags) ||| PAGE_PRESENT),
      tables := Function.update s.tables base (Function.update (fun _ => 0) pt_index pte) }

/-- `setup_paging`: zero the 1024 directory entries, then identity-map the
first 4 MiB with `PAGE_WRITABLE`.  The C loop `for (i = 0; i < 0x400000;
i += PAGE_SIZE)` visits exactly `i = k * PAGE_SIZE` for `k < 1024`.
(The final CR3 load and CR0 PG-bit store touch only CPU registers and are not
part of the memory state.) -/
def setup_paging (s : MachineState) : MachineState :=
  (List.range 1024).foldl
    (fun st k => map_page_with_directory st (k * PAGE_SIZE) (k * PAGE_SIZE) PAGE_WRITABLE)
    { s with pd := fun _ => 0 }

/-- The standard x86 two-level translation of virtual address `v < 2 ^ 32`
through the directory and tables of `s` (hardware MMU semantics; this is the
meaning of the structures `map_page_with_directory` builds, not repo code). -/
def translate (s : MachineState) (v : Nat) : Option Nat :=
  let pde := s.pd (v >>> 22)
  if pde &&& PAGE_PRESENT = 0 then none
  else
    let pte := s.tables (pde &&& 0xFFFFF000) ((v >>> 12) &&& 0x3FF)
    if pte &&& PAGE_PRESENT = 0 then none
    else some ((pte &&& 0xFFFFF000) + (v &&& 0xFFF))

/-- Both translating entries for `v` are present and have `PAGE_WRITABLE`. -/
def writableMapped (s : MachineState) (v : Nat) : Bool :=
  let pde := s.pd (v >>> 22)
  let pte := s.tables (pde &&& 0xFFFFF000) ((v >>> 12) &&& 0x3FF)
  pde &&& PAGE_PRESENT != 0 && (pde &&& PAGE_WRITABLE != 0 &&
    (pte &&& PAGE_PRESENT != 0 && pte &&& PAGE_WRITABLE != 0))

/-! ### Multiboot memory-map parsing (`parse_memory_map`) -/

structure memory_map_entry where
  addr : Nat
  len : Nat
  typ : Nat
deriving DecidableEq

structure MemoryRegion where
  base : Nat
  length : Nat
deriving DecidableEq

/-- Little-endian `uint32_t` read from the byte buffer `mb` at offset `o`. -/
def readU32 (mb : Nat → Nat) (o : Nat) : Nat :=
  mb o + 256 * (mb (o + 1) + 256 * (mb (o + 2) + 256 * mb (o + 3)))

/-- Little-endian `uint64_t` read at offset `o`. -/
def readU64 (mb : Nat → Nat) (o : Nat) : Nat :=
  readU32 mb o + 2 ^ 32 * readU32 mb (o + 4)

/-- Inner loop of `parse_memory_map`: `while ((uint8_t*)entry < (uint8_t*)tag
+ tag->size)`.  `stop` is `tag + tag->size` as a byte offset; each entry's
fields are read at offsets `+0` (addr), `+8` (len), `+16` (type); an entry is
appended when its type is 1 and fewer than `MAX_MEMORY_REGIONS` regions are
stored; the cursor advances by `entry_size`.  Fuel bounds the loop. -/
def parse_entries (mb : Nat → Nat) (stop entry_size : Nat) :
    Nat → List MemoryRegion → Nat → Option (List MemoryRegion)
  | _, _, 0 => none
  | off, acc, fuel + 1 =>
    if off < stop then
      let acc' := if readU32 mb (off + 16) = 1 ∧ acc.length < MAX_MEMORY_REGIONS
        then acc ++ [⟨readU64 mb off, readU64 mb (off + 8)⟩] else acc
      parse_entries mb stop entry_size (off + entry_size) acc' fuel
    else some acc

/-- Outer loop of `parse_memory_map`: walk tags until a type-0 tag; a type-6
tag has its entry size at `+8` and entries from `+16`; the cursor advances by
`(tag->size + 7) & ~7` (32-bit arithmetic). -/
def parse_tags (mb : Nat → Nat) : Nat → List MemoryRegion → Nat → Option (List MemoryRegion)
  | _, _, 0 => none
  | off, acc, fuel + 1 =>
    if readU32 mb off = 0 then some acc
    else
      match (if readU32 mb off = 6 then
               parse_entries mb (off + readU32 mb (off + 4)) (readU32 mb (off + 8))
                 (off + 16) acc fuel
             else some acc) with
      | none => none
      | some acc' =>
          parse_tags mb (off + (((readU32 mb (off + 4) + 7) % 2 ^ 32) &&& 0xFFFFFFF8)) acc' fuel

/-- `parse_memory_map(multiboot_info)`: skip the 8-byte header, then walk the
tags, starting from an empty `usable_memory_regions` array. -/
def parse_memory_map (mb : Nat → Nat) (fuel : Nat) : Option (List MemoryRegion) :=
  parse_tags mb 8 [] fuel

/-- Description of a well-formed run of 24-byte memory-map entries at byte
offset `off`, ending exactly at `stop`: the claims quantify over well-formed
tag buffers, and this relation is what "well-formed" means for the entry run
of one memory-map tag. -/
inductive EntriesDesc (mb : Nat → Nat) : Nat → Nat → List memory_map_entry → Prop where
  | nil {off stop : Nat} (h : ¬ off < stop) : EntriesDesc mb off stop []
  | cons {off stop : Nat} {e : memory_map_entry} {rest : List memory_map_entry}
      (hlt : off < stop)
      (ha : readU64 mb off = e.addr) (hl : readU64 mb (off + 8) = e.len)
      (ht : readU32 mb (off + 16) = e.typ)
      (hrest : EntriesDesc mb (off + 24) stop rest) :
      EntriesDesc mb off stop (e :: rest)

/-- Abstract content of one multiboot tag. -/
inductive TagDesc where
  | other (ty sz : Nat)
  | mmap (sz : Nat) (entries : List memory_map_entry)

/-- `(sz + 7) & ~7` on `uint32_t`: the 8-byte-rounded tag advance. -/
def tagAdvance (sz : Nat) : Nat := ((sz + 7) % 2 ^ 32) &&& 0xFFFFFFF8

/-- Description of a well-formed tag buffer from byte offset `off`: a sequence
of tags, each either a non-memory-map tag or a memory-map tag (type 6, entry
size 24, a well-formed entry run filling `[off+16, off+sz)`), terminated by a
type-0 tag. -/
inductive BufDesc (mb : Nat → Nat) : Nat → List TagDesc → Prop where
  | last {off : Nat} (h : readU32 mb off = 0) : BufDesc mb off []
  | other {off ty sz : Nat} {rest : List TagDesc}
      (hty0 : ty ≠ 0) (hty6 : ty ≠ 6)
      (hrt : readU32 mb off = ty) (hrs : readU32 mb (off + 4) = sz)
      (hrest : BufDesc mb (off + tagAdvance sz) rest) :
      BufDesc mb off (.other ty sz :: rest)
  | mmap {off sz : Nat} {entries : List memory_map_entry} {rest : List TagDesc}
      (hrt : readU32 mb off = 6) (hrs : readU32 mb (off + 4) = sz)
      (hes : readU32 mb (off + 8) = 24)
      (hentries : EntriesDesc mb (off + 16) (off + sz) entries)
      (hrest : BufDesc mb (off + tagAdvance sz) rest) :
      BufDesc mb off (.mmap sz entries :: rest)

/-- The regions the spec says parsing must retain from one entry run: the
available (type 1) entries, in encounter order, projected to base/length. -/
def availOfEntries (es : List memory_map_entry) : List MemoryRegion :=
  (es.filter (fun e => e.typ == 1)).map (fun e => ⟨e.addr, e.len⟩)

/-- All available regions of a tag list, in encounter order. -/
def availRegions : List TagDesc → List MemoryRegion
  | [] => []
  | .other _ _ :: rest => availRegions rest
  | .mmap _ es :: rest => availOfEntries es ++ availRegions rest

/-- Enough fuel to walk the given tag list. -/
def tagsFuel : List TagDesc → Nat
  | [] => 1
  | .other _ _ :: rest => 1 + tagsFuel rest
  | .mmap _ es :: rest => 1 + (es.length + 1) + tagsFuel rest

/-! ### Kernel heap allocator (`kmalloc` / `kfree`)

State: `heap_current`, `free_list` (the head address, `0` for `NULL`), and
the memory holding `BlockHeader`s, as a total function from a header's
address to its two fields.  `carved` is a ghost history variable recording
every header address the carve branch of `kmalloc` has created; no modelled
code reads it, it only lets the invariants speak about "the heap's blocks". -/

structure BlockHeader where
  size : Nat
  next : Nat

structure HeapState where
  heap_current : Nat
  free_list : Nat
  mem : Nat → BlockHeader
  carved : List Nat

/-- The carve branch of `kmalloc`: `total_size = sizeof(BlockHeader) + size`
(the header is 8 bytes), bound check against `KERNEL_HEAP_END`, then
`block->size = size`, advance `heap_current`, return `block + 1` — all
address arithmetic on `uint32_t`. -/
def carveBlock (kernelEnd sz : Nat) (s : HeapState) : Option Nat × HeapState :=
  let total := (8 + sz) % 2 ^ 32
  if KERNEL_HEAP_END kernelEnd < (s.heap_current + total) % 2 ^ 32 then (none, s)
  else
    (some ((s.heap_current + 8) % 2 ^ 32),
      { s with
        mem := Function.update s.mem s.heap_current ⟨sz, (s.mem s.heap_current).next⟩,
        heap_current := (s.heap_current + total) % 2 ^ 32,
        carved := s.heap_current :: s.carved })

/-- The free-list walk of `kmalloc` (first fit).  `prev`/`curr` are the two
cursor pointers of the C loop; on a fit the block is unlinked (from the head
when `prev` is `NULL`, else by rewriting `prev->next`) and `curr + 1` is
returned; when the walk reaches `NULL` the carve branch runs.  Fuel bounds
the walk; `none` means the C loop is still running after `fuel` steps. -/
def kmallocGo (kernelEnd sz : Nat) (s : HeapState) :
    Nat → Nat → Nat → Option (Option Nat × HeapState)
  | _, _, 0 => none
  | prev, curr, fuel + 1 =>
    if curr ≠ 0 then
      if sz ≤ (s.mem curr).size then
        some (some ((curr + 8) % 2 ^ 32),
          if prev ≠ 0 then
            { s with mem := Function.update s.mem prev ⟨(s.mem prev).size, (s.mem curr).next⟩ }
          else
            { s with free_list := (s.mem curr).next })
      else kmallocGo kernelEnd sz s curr (s.mem curr).next fuel
    else some (carveBlock kernelEnd sz s)

/-- `kmalloc(size)`: round the size up with `ALIGN8`, then walk the free list
from its head with `prev = NULL`. -/
def kmalloc (kernelEnd size : Nat) (s : HeapState) (fuel : Nat) :
    Option (Option Nat × HeapState) :=
  kmallocGo kernelEnd (ALIGN8 size) s 0 s.free_list fuel

/-- `kfree(ptr)`: NULL is ignored; otherwise the header at `ptr - 8` is
pushed onto the front of the free list (`block->next = free_list;
free_list = block`). -/
def kfree (ptr : Nat) (s : HeapState) : HeapState :=
  if ptr = 0 then s
  else
    let block := sub32 ptr 8
    { s with
      mem := Function.update s.mem block ⟨(s.mem block).size, s.free_list⟩,
      free_list := block }

/-- The free list as a linked structure in memory: `Chain mem head l` says
that following `next` from `head` visits exactly the addresses in `l` and
ends at `NULL`. -/
inductive Chain (mem : Nat → BlockHeader) : Nat → List Nat → Prop where
  | nil : Chain mem 0 []
  | cons {a : Nat} {l : List Nat} (ha : a ≠ 0) (hl : Chain mem (mem a).next l) :
      Chain mem a (a :: l)

/-- The state produced by the unlink in `kmalloc`'s found branch, when the
fitting block is `c` and the `prev` cursor holds `p` at that moment. -/
def unlinkState (s : HeapState) (c p : Nat) : HeapState :=
  if p ≠ 0 then { s with mem := Function.update s.mem p ⟨(s.mem p).size, (s.mem c).next⟩ }
  else { s with free_list := (s.mem c).next }

/-- The last element of a list, or `d` when the list is empty (the value the
`prev` cursor holds after walking the list, having started at `d`). -/
def lastOr : List Nat → Nat → Nat
  | [], d => d
  | x :: xs, _ => lastOr xs x

/-- The state `kfree` produces when freeing the block whose header is at
`c` (spelled out, for stating lemmas). -/
def freedState (s1 : HeapState) (c : Nat) : HeapState :=
  { s1 with
    mem := Function.update s1.mem c ⟨(s1.mem c).size, s1.free_list⟩,
    free_list := c }

/-- The `kfree` contract of `memory.c` (`ptr` "must have been returned by a
prior call to kmalloc()", and the spec's "no heap block double-freed"):
`ptr` is nonzero, its header address is nonzero, was carved by `kmalloc`,
and is not currently on the free list. -/
def ValidFree (s : HeapState) (ptr : Nat) : Prop :=
  ptr ≠ 0 ∧ sub32 ptr 8 ≠ 0 ∧ sub32 ptr 8 ∈ s.carved ∧
    ∀ l, Chain s.mem s.free_list l → sub32 ptr 8 ∉ l

/-- Heap states reachable by contract-respecting `kmalloc`/`kfree` sequences
from the boot state (`heap_current = KERNEL_HEAP_START`, empty free list,
arbitrary junk in memory). -/
inductive ReachableHeap (kernelEnd : Nat) : HeapState → Prop where
  | init (m : Nat → BlockHeader) : ReachableHeap kernelEnd ⟨kernelEnd, 0, m, []⟩
  | step_malloc {s s' : HeapState} {r : Option Nat} (size fuel : Nat) :
      ReachableHeap kernelEnd s → kmalloc kernelEnd size s fuel = some (r, s') →
      ReachableHeap kernelEnd s'
  | step_free {s : HeapState} (ptr : Nat) :
      ReachableHeap kernelEnd s → ValidFree s ptr → ReachableHeap kernelEnd (kfree ptr s)

/-- The heap invariant: the cursor is 8-aligned and a 32-bit value, every
carved header is at an 8-aligned 32-bit address and stores an 8-aligned size,
and the free list is a chain of carved headers. -/
def HeapInv (s : HeapState) : Prop :=
  s.heap_current % 8 = 0 ∧ s.heap_current < 2 ^ 32 ∧
  (∀ a ∈ s.carved, a % 8 = 0 ∧ a < 2 ^ 32 ∧ (s.mem a).size % 8 = 0) ∧
  ∃ l, Chain s.mem s.free_list l ∧ ∀ a ∈ l, a ∈ s.carved

/-! ### Concrete states for witnesses and counterexamples -/

/-- A frame allocator whose arena sits at the top of the 32-bit address
space: reachable from a memory map with one region at base `0xFFFFF000` of
length `0x2000`.  All bits set. -/
def wrapFrameState : FrameState := ⟨fun _ => 0xFF, 2, 0xFFFFF000⟩

/-- A machine whose frame allocator is exhausted (`total_pages = 0`) and
whose directory is all zeros. -/
def exhaustedMachine : MachineState := ⟨⟨fun _ => 0, 0, 0⟩, fun _ => 0, fun _ _ => 0⟩

/-- A machine with one free frame at `0x400000` for the demo of
`setup_paging`. -/
def pagingDemo : MachineState := ⟨⟨fun _ => 0, 1, 0x400000⟩, fun _ => 0, fun _ _ => 0⟩

/-- The boot heap state for `kernel_end = 0x100000`. -/
def heapInit0 : HeapState := ⟨0x100000, 0, fun _ => ⟨0, 0⟩, []⟩

/-- A heap whose cursor has reached the arena end for
`kernel_end = 0x100000`. -/
def heapFull : HeapState := ⟨0x200000, 0, fun _ => ⟨0, 0⟩, []⟩

/-- `heapInit0` after `kmalloc(8)` carved one block at `0x100000`. -/
def heapAfter8 : HeapState :=
  ⟨0x100010, 0, Function.update (fun _ => ⟨0, 0⟩) 0x100000 ⟨8, 0⟩, [0x100000]⟩

/-- A concrete multiboot buffer: 8-byte header, one memory-map tag
(type 6, size 88, entry size 24) holding two available entries around one
reserved entry, then the terminating tag. -/
def mbBytes : List Nat :=
  [0, 0, 0, 0, 0, 0, 0, 0,
   6, 0, 0, 0, 88, 0, 0, 0, 24, 0, 0, 0, 0, 0, 0, 0,
   0x00, 0x10, 0, 0, 0, 0, 0, 0, 0x00, 0x20, 0, 0, 0, 0, 0, 0, 1, 0, 0, 0, 0, 0, 0, 0,
   0x00, 0x50, 0, 0, 0, 0, 0, 0, 0x00, 0x10, 0, 0, 0, 0, 0, 0, 2, 0, 0, 0, 0, 0, 0, 0,
   0, 0, 0x10, 0, 0, 0, 0, 0, 0, 0, 0x10, 0, 0, 0, 0, 0, 1, 0, 0, 0, 0, 0, 0, 0,
   0, 0, 0, 0, 8, 0, 0, 0]

def mbEx : Nat → Nat := fun o => mbBytes.getD o 0

def mbExEntries : List memory_map_entry :=
  [⟨0x1000, 0x2000, 1⟩, ⟨0x5000, 0x1000, 2⟩, ⟨0x100000, 0x100000, 1⟩]

def mbExTags : List TagDesc := [TagDesc.mmap 88 mbExEntries]

/-! ## Lemmas and theorems -/

/-! ### Bitmap lemmas -/

theorem shiftLeft_one (k : Nat) : (1 : Nat) <<< k = 2 ^ k := by
  rw [Nat.shiftLeft_eq, one_mul]

theorem bitmapTest_eq (bm : Nat → Nat) (i : Nat) :
    bitmapTest bm i = (bm (i / 8)).testBit (i % 8) := by
  rw [bitmapTest, shiftLeft_one, Nat.and_two_pow]
  cases h : (bm (i / 8)).testBit (i % 8) <;> simp [h]

theorem bitmapTest_set (bm : Nat → Nat) (i j : Nat) :
    bitmapTest (bitmapSet bm i) j = if j = i then true else bitmapTest bm j := by
  rw [bitmapTest_eq, bitmapTest_eq, bitmapSet]
  by_cases hb : j / 8 = i / 8
  · rw [hb, Function.update_same, Nat.testBit_or, shiftLeft_one, Nat.testBit_two_pow]
    by_cases hij : j = i
    · simp [hij]
    · have : ¬ i % 8 = j % 8 := by omega
      simp [hij, this]
  · have hij : ¬ j = i := by omega
    rw [Function.update_noteq hb, if_neg hij]

theorem bitmapTest_clear (bm : Nat → Nat) (i j : Nat) :
    bitmapTest (bitmapClear bm i) j = if j = i then false else bitmapTest bm j := by
  rw [bitmapTest_eq, bitmapTest_eq, bitmapClear]
  by_cases hb : j / 8 = i / 8
  · rw [hb, Function.update_same, Nat.testBit_and, Nat.testBit_xor, shiftLeft_one,
      Nat.testBit_two_pow]
    have h255 : Nat.testBit 0xFF (j % 8) = true := by
      have h8 : j % 8 < 8 := Nat.mod_lt _ (by norm_num)
      have : (0xFF : Nat) = 2 ^ 8 - 1 := by norm_num
      rw [this, Nat.testBit_two_pow_sub_one]
      simpa using h8
    rw [h255]
    by_cases hij : j = i
    · have : i % 8 = j % 8 := by omega
      simp [hij, this]
    · have : ¬ i % 8 = j % 8 := by omega
      simp [hij, this]
  · have hij : ¬ j = i := by omega
    rw [Function.update_noteq hb, if_neg hij]

theorem bitmapTest_zero (i : Nat) : bitmapTest (fun _ => 0) i = false := by
  rw [bitmapTest_eq]; exact Nat.zero_testBit _

/-! ### find? over ranges -/

theorem find?_range'_eq (q : Nat → Bool) :
    ∀ (k a n : Nat), (∀ j, j < k → q (a + j) = false) → q (a + k) = true → k < n →
      (List.range' a n).find? q = some (a + k)
  | 0, a, n, _, hk, hkn => by
    obtain ⟨m, rfl⟩ : ∃ m, n = m + 1 := ⟨n - 1, by omega⟩
    have hq : q a = true := by simpa using hk
    rw [List.range'_succ, List.find?_cons_of_pos _ hq]
    simp
  | k + 1, a, n, hlt, hk, hkn => by
    obtain ⟨m, rfl⟩ : ∃ m, n = m + 1 := ⟨n - 1, by omega⟩
    have h0 : q a = false := by simpa using hlt 0 (by omega)
    rw [List.range'_succ, List.find?_cons_of_neg _ (by simp [h0])]
    have hrec := find?_range'_eq q k (a + 1) m
      (fun j hj => by
        have h := hlt (j + 1) (by omega)
        have e : a + 1 + j = a + (j + 1) := by omega
        rw [e]; exact h)
      (by
        have e : a + 1 + k = a + (k + 1) := by omega
        rw [e]; exact hk)
      (by omega)
    rw [hrec]
    congr 1
    omega

theorem find?_range_eq (q : Nat → Bool) (k n : Nat)
    (hlt : ∀ j, j < k → q j = false) (hk : q k = true) (hkn : k < n) :
    (List.range n).find? q = some k := by
  rw [List.range_eq_range']
  simpa using find?_range'_eq q k 0 n (by simpa using hlt) (by simpa using hk) hkn

/-! ### Frame allocator characterization -/

theorem alloc_page_at (s : FrameState) (k : Nat)
    (h : ∀ i, bitmapTest s.bitmap i = decide (i < k)) (hk : k < s.total_pages) :
    alloc_page s = (some ((s.memory_start + k * PAGE_SIZE) % 2 ^ 32),
      { s with bitmap := bitmapSet s.bitmap k }) := by
  rw [alloc_page, find?_range_eq (fun i => !bitmapTest s.bitmap i) k s.total_pages
    (fun j hj => by simp [h j, hj])
    (by simp [h k]) hk]

theorem alloc_page_none (s : FrameState)
    (h : ∀ i, i < s.total_pages → bitmapTest s.bitmap i = true) :
    alloc_page s = (none, s) := by
  rw [alloc_page]
  have : (List.range s.total_pages).find? (fun i => !bitmapTest s.bitmap i) = none := by
    rw [List.find?_eq_none]
    intro x hx
    rw [List.mem_range] at hx
    rw [h x hx]
    simp
  rw [this]

theorem allocReps_succ (s : FrameState) (k : Nat) :
    allocReps s (k + 1) = (alloc_page (allocReps s k)).snd := by
  induction k generalizing s with
  | zero => rfl
  | succ k ih => rw [allocReps, ih, allocReps]

theorem allocReps_allFree (n ms k : Nat) (hk : k ≤ n) :
    (allocReps (allFreeState n ms) k).total_pages = n ∧
    (allocReps (allFreeState n ms) k).memory_start = ms ∧
    ∀ i, bitmapTest (allocReps (allFreeState n ms) k).bitmap i = decide (i < k) := by
  induction k with
  | zero =>
    refine ⟨rfl, rfl, fun i => ?_⟩
    rw [allocReps, allFreeState, bitmapTest_zero]
    simp
  | succ k ih =>
    obtain ⟨ht, hm, hb⟩ := ih (by omega)
    rw [allocReps_succ, alloc_page_at _ k hb (by omega)]
    refine ⟨ht, hm, fun i => ?_⟩
    rw [bitmapTest_set, hb i]
    by_cases hik : i = k
    · simp [hik]
    · have : (i < k) = (i < k + 1) := by
        apply propext; constructor <;> intro <;> omega
      simp [hik, this]

theorem nthAlloc_allFree (n ms k : Nat) (hk : k < n) :
    nthAllocResult (allFreeState n ms) k = some ((ms + k * PAGE_SIZE) % 2 ^ 32) := by
  obtain ⟨ht, hm, hb⟩ := allocReps_allFree n ms k (by omega)
  rw [nthAllocResult, alloc_page_at _ k hb (by omega), hm]

theorem nthAlloc_allFree_exhaust (n ms : Nat) :
    nthAllocResult (allFreeState n ms) n = none := by
  obtain ⟨ht, hm, hb⟩ := allocReps_allFree n ms n (le_refl n)
  rw [nthAllocResult, alloc_page_none _ (fun i hi => by rw [hb i]; simpa [ht] using hi)]

/-- Claim C2 (amended): an allocation never returns a frame whose bitmap bit
was already set (it finds a clear bit, sets exactly it, and returns the
address derived from its index); and when the arena does not wrap around the
32-bit address space (`ms + n * PAGE_SIZE ≤ 2 ^ 32`), starting from all `n`
frames free, the first `n` allocations succeed with pairwise distinct
addresses and the `(n+1)`-th returns the out-of-memory signal.  (Without the
no-wrap side condition the addresses, reduced modulo `2 ^ 32`, can repeat;
see the counterexample.) -/
theorem c2_alloc_fresh_and_exhaustion :
    (∀ (s : FrameState) (a : Nat) (s' : FrameState), alloc_page s = (some a, s') →
       ∃ i, i < s.total_pages ∧ bitmapTest s.bitmap i = false ∧
         a = (s.memory_start + i * PAGE_SIZE) % 2 ^ 32 ∧ s'.bitmap = bitmapSet s.bitmap i) ∧
    (∀ n ms : Nat, ms + n * PAGE_SIZE ≤ 2 ^ 32 →
       (∀ k, k < n → nthAllocResult (allFreeState n ms) k = some (ms + k * PAGE_SIZE)) ∧
       (∀ i j, i < n → j < n →
          nthAllocResult (allFreeState n ms) i = nthAllocResult (allFreeState n ms) j →
          i = j) ∧
       nthAllocResult (allFreeState n ms) n = none) := by
  constructor
  · intro s a s' h
    rw [alloc_page] at h
    cases hf : (List.range s.total_pages).find? (fun i => !bitmapTest s.bitmap i) with
    | none =>
      rw [hf] at h
      exact absurd (congrArg Prod.fst h) (by simp)
    | some i =>
      rw [hf] at h
      have hmem := List.mem_range.mp (List.mem_of_find?_eq_some hf)
      have hclear : bitmapTest s.bitmap i = false := by
        have := List.find?_some hf
        simpa using this
      have h1 : some ((s.memory_start + i * PAGE_SIZE) % 2 ^ 32) = some a :=
        congrArg Prod.fst h
      have h2 : { s with bitmap := bitmapSet s.bitmap i } = s' := congrArg Prod.snd h
      exact ⟨i, hmem, hclear, (Option.some.inj h1).symm, by rw [← h2]⟩
  · intro n ms hwrap
    have hfor : ∀ k, k < n → nthAllocResult (allFreeState n ms) k = some (ms + k * PAGE_SIZE) := by
      intro k hk
      rw [nthAlloc_allFree n ms k hk, Nat.mod_eq_of_lt]
      have : k * PAGE_SIZE + PAGE_SIZE ≤ n * PAGE_SIZE := by
        have : (k + 1) * PAGE_SIZE ≤ n * PAGE_SIZE :=
          Nat.mul_le_mul_right _ (by omega)
        simpa [Nat.add_mul] using this
      rw [PAGE_SIZE] at *
      omega
    refine ⟨hfor, fun i j hi hj hij => ?_, nthAlloc_allFree_exhaust n ms⟩
    rw [hfor i hi, hfor j hj] at hij
    have := Option.some.inj hij
    rw [PAGE_SIZE] at this
    omega

/-- Witness for C2: a two-frame allocator at base 0 hands out 0 and 4096 and
then reports exhaustion. -/
theorem c2_witness :
    0 + 2 * PAGE_SIZE ≤ 2 ^ 32 ∧
    nthAllocResult (allFreeState 2 0) 0 = some (0 + 0 * PAGE_SIZE) ∧
    nthAllocResult (allFreeState 2 0) 1 = some (0 + 1 * PAGE_SIZE) ∧
    nthAllocResult (allFreeState 2 0) 2 = none := by
  have hwrap : 0 + 2 * PAGE_SIZE ≤ 2 ^ 32 := by rw [PAGE_SIZE]; norm_num
  obtain ⟨hfor, _, hex⟩ := c2_alloc_fresh_and_exhaustion.2 2 0 hwrap
  exact ⟨hwrap, hfor 0 (by norm_num), hfor 1 (by norm_num), hex⟩

/-- Counterexample for C2 as stated: with `2 ^ 20 + 1` frames based at 0 (an
arena wider than 4 GiB, reachable from a 64-bit memory-map region), the first
and the `2 ^ 20`-th allocation both succeed and both return address 0 — two
successful allocations among the first `n` with the same frame address. -/
theorem c2_counterexample :
    nthAllocResult (allFreeState (2 ^ 20 + 1) 0) 0 = some 0 ∧
    nthAllocResult (allFreeState (2 ^ 20 + 1) 0) (2 ^ 20) = some 0 ∧
    (0 : Nat) ≠ 2 ^ 20 ∧ 2 ^ 20 < 2 ^ 20 + 1 := by
  refine ⟨?_, ?_, by norm_num, by norm_num⟩
  · rw [nthAlloc_allFree _ 0 0 (by norm_num)]
    norm_num
  · rw [nthAlloc_allFree _ 0 (2 ^ 20) (by norm_num)]
    rw [PAGE_SIZE]
    norm_num

/-! ### free_page -/

theorem sub32_of_le {a b : Nat} (ha : a < 2 ^ 32) (hb : b < 2 ^ 32) (hle : b ≤ a) :
    sub32 a b = a - b := by
  rw [sub32, Nat.mod_eq_of_lt hb]
  have h1 : a + 2 ^ 32 - b = (a - b) + 2 ^ 32 := by omega
  rw [h1, Nat.add_mod_right, Nat.mod_eq_of_lt (by omega)]

/-- Claim C5 (amended): for an address at or above the arena base, the frame
free operation clears exactly the bit at index
`(addr - memory_start) / PAGE_SIZE` when that index is within the tracked
frame count, and is a no-op when the index is out of range.  (Addresses below
the arena base are not always ignored: the index is computed with 32-bit
wraparound subtraction and can land back in range; see the counterexample.) -/
theorem c5_free_page_in_range (s : FrameState) (addr : Nat)
    (h32 : s.memory_start < 2 ^ 32) (ha32 : addr < 2 ^ 32) (hge : s.memory_start ≤ addr) :
    ((addr - s.memory_start) / PAGE_SIZE < s.total_pages →
       ∀ j, bitmapTest (free_page s addr).bitmap j =
         if j = (addr - s.memory_start) / PAGE_SIZE then false else bitmapTest s.bitmap j) ∧
    (s.total_pages ≤ (addr - s.memory_start) / PAGE_SIZE → free_page s addr = s) := by
  rw [free_page, sub32_of_le ha32 h32 hge]
  constructor
  · intro hlt j
    rw [if_pos hlt]
    exact bitmapTest_clear s.bitmap _ j
  · intro hge2
    rw [if_neg (by omega)]

/-- Witness for C5: freeing the base address of the two-frame arena at
`0xFFFFF000` clears exactly bit 0 and leaves bit 1 set. -/
theorem c5_witness :
    wrapFrameState.memory_start < 2 ^ 32 ∧
    bitmapTest (free_page wrapFrameState 0xFFFFF000).bitmap 0 = false ∧
    bitmapTest (free_page wrapFrameState 0xFFFFF000).bitmap 1 = true := by
  have h := (c5_free_page_in_range wrapFrameState 0xFFFFF000
    (by norm_num [wrapFrameState]) (by norm_num) (by norm_num [wrapFrameState])).1
  have hidx : (0xFFFFF000 - wrapFrameState.memory_start) / PAGE_SIZE = 0 := by
    norm_num [wrapFrameState, PAGE_SIZE]
  have hlt : (0xFFFFF000 - wrapFrameState.memory_start) / PAGE_SIZE
      < wrapFrameState.total_pages := by
    rw [hidx]; norm_num [wrapFrameState]
  refine ⟨by norm_num [wrapFrameState], ?_, ?_⟩
  · rw [h hlt 0, hidx]
    simp
  · rw [h hlt 1, hidx]
    norm_num
    decide

/-- Counterexample for C5 as stated: the address 0 lies below the arena base
`0xFFFFF000` of `wrapFrameState`, yet freeing it clears bit 1 — the 32-bit
wraparound index `(0 - 0xFFFFF000) / 4096 = 1` is in range, so the call is
not ignored and the bitmap changes. -/
theorem c5_counterexample :
    0 < wrapFrameState.memory_start ∧
    bitmapTest wrapFrameState.bitmap 1 = true ∧
    bitmapTest (free_page wrapFrameState 0).bitmap 1 = false := by
  refine ⟨by norm_num [wrapFrameState], by decide, by decide⟩

/-! ### map_page_with_directory with an exhausted allocator (C1) -/

/-- Claim C1 (code bug): with an exhausted frame allocator and an unpopulated
directory slot, the map operation does not fail cleanly — it stores through
the NULL pointer returned by the allocator: the directory slot for the
virtual address is installed as present, and a page-table entry is written
into the (null) table at address 0.  The alleged allocation_failure outcome
with no mapping written does not exist in the code. -/
theorem c1_map_failure_writes_mapping :
    (alloc_page exhaustedMachine.frames).fst = none ∧
    (map_page_with_directory exhaustedMachine 0 0x5000 PAGE_WRITABLE).pd 0 &&& PAGE_PRESENT = 1 ∧
    (map_page_with_directory exhaustedMachine 0 0x5000 PAGE_WRITABLE).tables 0 0 = 0x5003 := by
  refine ⟨rfl, by decide, by decide⟩

/-! ### Page-table entry bit lemmas -/

theorem testBit_mask (i : Nat) :
    Nat.testBit 0xFFFFF000 i = (decide (12 ≤ i) && decide (i < 32)) := by
  rcases Nat.lt_or_ge i 32 with h | h
  · have hall : ∀ j, j < 32 →
        Nat.testBit 0xFFFFF000 j = (decide (12 ≤ j) && decide (j < 32)) := by decide
    exact hall i h
  · have h1 : Nat.testBit 0xFFFFF000 i = false :=
      Nat.testBit_lt_two_pow (lt_of_lt_of_le (by norm_num)
        (Nat.pow_le_pow_right (by norm_num) h))
    have h2 : ¬ i < 32 := by omega
    simp [h1, h2]

theorem testBit_low_of_aligned {x : Nat} (hx : x % 4096 = 0) {i : Nat} (hi : i < 12) :
    x.testBit i = false := by
  have h : (x % 2 ^ 12).testBit i = x.testBit i := by
    rw [Nat.testBit_mod_two_pow]
    simp [hi]
  rw [← h]
  have h4096 : x % 2 ^ 12 = 0 := by
    have : (2 : Nat) ^ 12 = 4096 := by norm_num
    rw [this]; exact hx
  rw [h4096]
  exact Nat.zero_testBit i

theorem entry_and_mask {x : Nat} (hx : x % 4096 = 0) (h32 : x < 2 ^ 32) :
    (((x &&& 0xFFFFF000) ||| 2) ||| 1) &&& 0xFFFFF000 = x := by
  apply Nat.eq_of_testBit_eq
  intro i
  simp only [Nat.testBit_and, Nat.testBit_or, testBit_mask]
  rcases Nat.lt_or_ge i 12 with h | h
  · have hx0 : x.testBit i = false := testBit_low_of_aligned hx h
    have h12 : ¬ 12 ≤ i := by omega
    simp [hx0, h12]
  · rcases Nat.lt_or_ge i 32 with h2 | h2
    · have t2 : Nat.testBit 2 i = false :=
        Nat.testBit_lt_two_pow (lt_of_lt_of_le (by norm_num)
          (Nat.pow_le_pow_right (by norm_num) (by omega : 2 ≤ i)))
      have t1 : Nat.testBit 1 i = false :=
        Nat.testBit_lt_two_pow (lt_of_lt_of_le (by norm_num)
          (Nat.pow_le_pow_right (by norm_num) (by omega : 1 ≤ i)))
      simp [t2, t1, h, h2]
    · have tx : x.testBit i = false :=
        Nat.testBit_lt_two_pow (lt_of_lt_of_le h32 (Nat.pow_le_pow_right (by norm_num) h2))
      have h32n : ¬ i < 32 := by omega
      simp [tx, h32n]

theorem testBit_one (i : Nat) : Nat.testBit 1 i = decide (0 = i) := by
  have e : (1 : Nat) = 2 ^ 0 := rfl
  rw [e]
  exact Nat.testBit_two_pow

theorem testBit_two (i : Nat) : Nat.testBit 2 i = decide (1 = i) := by
  have e : (2 : Nat) = 2 ^ 1 := rfl
  rw [e]
  exact Nat.testBit_two_pow

theorem or_one_and_one (z : Nat) : (z ||| 1) &&& 1 = 1 := by
  apply Nat.eq_of_testBit_eq
  intro i
  simp only [Nat.testBit_and, Nat.testBit_or, testBit_one]
  by_cases hi : i = 0
  · simp [hi]
  · simp [Ne.symm hi]

theorem or_two_or_one_and_two (z : Nat) : ((z ||| 2) ||| 1) &&& 2 = 2 := by
  apply Nat.eq_of_testBit_eq
  intro i
  simp only [Nat.testBit_and, Nat.testBit_or, testBit_one, testBit_two]
  by_cases hi : i = 1
  · simp [hi]
  · simp [Ne.symm hi]

/-! ### The setup_paging loop -/

theorem alloc_page_fst_lt (s : FrameState) (a : Nat)
    (h : (alloc_page s).fst = some a) : a < 2 ^ 32 := by
  rw [alloc_page] at h
  cases hf : (List.range s.total_pages).find? (fun i => !bitmapTest s.bitmap i) with
  | none => rw [hf] at h; simp at h
  | some i =>
    rw [hf] at h
    simp only at h
    rw [← Option.some.inj h]
    exact Nat.mod_lt _ (by norm_num)

theorem setup_loop_inv (s : MachineState) (a : Nat)
    (halloc : (alloc_page s.frames).fst = some a) (hal : a % 4096 = 0) (h32 : a < 2 ^ 32) :
    ∀ m, 1 ≤ m → m ≤ 1024 →
      ((List.range m).foldl
        (fun st k => map_page_with_directory st (k * PAGE_SIZE) (k * PAGE_SIZE) PAGE_WRITABLE)
        { s with pd := fun _ => 0 }).pd
        = Function.update (fun _ => 0) 0 (((a &&& 0xFFFFF000) ||| 2) ||| 1) ∧
      ((List.range m).foldl
        (fun st k => map_page_with_directory st (k * PAGE_SIZE) (k * PAGE_SIZE) PAGE_WRITABLE)
        { s with pd := fun _ => 0 }).tables a
        = fun j => if j < m then (((j * PAGE_SIZE &&& 0xFFFFF000) ||| 2) ||| 1) else 0 := by
  intro m hm1 hm
  induction m with
  | zero => omega
  | succ m ih =>
    rcases Nat.eq_or_lt_of_le hm1 with h1 | h1
    · -- m + 1 = 1 : the first iteration allocates the table and maps entry 0
      have hm0 : m = 0 := by omega
      subst hm0
      rw [List.range_succ, List.range_zero, List.nil_append, List.foldl_cons, List.foldl_nil]
      rw [map_page_with_directory]
      simp only [PAGE_SIZE, PAGE_PRESENT, PAGE_WRITABLE, Nat.zero_mul, Nat.zero_shiftRight,
        Nat.zero_and]
      rw [if_neg (by simp)]
      dsimp only
      rw [halloc]
      simp only [Option.getD_some]
      constructor
      · trivial
      · funext j
        rw [Function.update_same]
        by_cases hj : j = 0
        · subst hj
          rw [Function.update_same, if_pos (by omega)]
          simp
        · rw [Function.update_noteq hj, if_neg (by omega)]
    · -- step: the directory slot is present, one more table entry is written
      have hmle : m ≤ 1024 := by omega
      have hm1' : 1 ≤ m := by omega
      obtain ⟨ihpd, ihtb⟩ := ih hm1' hmle
      rw [List.range_succ, List.foldl_append, List.foldl_cons, List.foldl_nil]
      set st := (List.range m).foldl
        (fun st k => map_page_with_directory st (k * PAGE_SIZE) (k * PAGE_SIZE) PAGE_WRITABLE)
        { s with pd := fun _ => 0 } with hst
      rw [map_page_with_directory]
      simp only [PAGE_SIZE, PAGE_PRESENT, PAGE_WRITABLE]
      have hvz : (m * 4096 : Nat) >>> 22 = 0 := by
        rw [Nat.shiftRight_eq_div_pow]
        exact Nat.div_eq_of_lt (by omega)
      have hpz : ((m * 4096 : Nat) >>> 12) &&& 0x3FF = m := by
        rw [Nat.shiftRight_eq_div_pow]
        have hd : m * 4096 / 2 ^ 12 = m := by
          have h12 : (2 : Nat) ^ 12 = 4096 := by norm_num
          rw [h12, Nat.mul_div_cancel _ (by norm_num)]
        rw [hd]
        have h3ff : (0x3FF : Nat) = 2 ^ 10 - 1 := by norm_num
        rw [h3ff, Nat.and_pow_two_sub_one_eq_mod]
        exact Nat.mod_eq_of_lt (by omega)
      rw [hvz, hpz, ihpd]
      have hpde : Function.update (fun _ => 0) 0 (((a &&& 0xFFFFF000) ||| 2) ||| 1) 0
          = ((a &&& 0xFFFFF000) ||| 2) ||| 1 := Function.update_same _ _ _
      rw [hpde, if_pos (by rw [or_one_and_one]; norm_num), entry_and_mask hal h32]
      dsimp only
      refine ⟨rfl, ?_⟩
      funext j
      rw [Function.update_same]
      by_cases hj : j = m
      · subst hj
        rw [Function.update_same, if_pos (by omega)]
      · rw [Function.update_noteq hj, ihtb]
        by_cases hjm : j < m
        · simp only [if_pos hjm, if_pos (show j < m + 1 by omega), PAGE_SIZE]
        · simp only [if_neg hjm, if_neg (show ¬ j < m + 1 by omega)]

/-- Claim C3: after setup_paging completes (its one page-table allocation
having returned a page-aligned frame), every virtual address below 4 MiB
translates, through the installed directory and table, to itself, and both
translating entries carry the writable flag. -/
theorem c3_setup_paging_identity (s : MachineState) (a : Nat)
    (halloc : (alloc_page s.frames).fst = some a) (hal : a % PAGE_SIZE = 0) :
    ∀ v, v < 0x400000 →
      translate (setup_paging s) v = some v ∧ writableMapped (setup_paging s) v = true := by
  intro v hv
  have h32 : a < 2 ^ 32 := alloc_page_fst_lt _ _ halloc
  have hal' : a % 4096 = 0 := by rw [PAGE_SIZE] at hal; exact hal
  obtain ⟨hpd, htb⟩ := setup_loop_inv s a halloc hal' h32 1024 (by norm_num) (le_refl _)
  have hsetup : setup_paging s = (List.range 1024).foldl
      (fun st k => map_page_with_directory st (k * PAGE_SIZE) (k * PAGE_SIZE) PAGE_WRITABLE)
      { s with pd := fun _ => 0 } := rfl
  have hv22 : v >>> 22 = 0 := by
    rw [Nat.shiftRight_eq_div_pow]
    exact Nat.div_eq_of_lt (by norm_num at hv ⊢; omega)
  have hidx : (v >>> 12) &&& 0x3FF = v / 4096 := by
    rw [Nat.shiftRight_eq_div_pow]
    have h12 : (2 : Nat) ^ 12 = 4096 := by norm_num
    rw [h12]
    have h3ff : (0x3FF : Nat) = 2 ^ 10 - 1 := by norm_num
    rw [h3ff, Nat.and_pow_two_sub_one_eq_mod]
    exact Nat.mod_eq_of_lt (by omega)
  have hvd : v / 4096 < 1024 := by omega
  have hpde : (setup_paging s).pd (v >>> 22) = ((a &&& 0xFFFFF000) ||| 2) ||| 1 := by
    rw [hsetup, hpd, hv22, Function.update_same]
  have hpte : (setup_paging s).tables a ((v >>> 12) &&& 0x3FF)
      = (((v / 4096) * PAGE_SIZE &&& 0xFFFFF000) ||| 2) ||| 1 := by
    rw [hsetup, htb]
    simp only [hidx]
    rw [if_pos hvd]
  have halidx : (v / 4096) * PAGE_SIZE % 4096 = 0 := by
    rw [PAGE_SIZE, Nat.mul_mod_left]
  have hidx32 : (v / 4096) * PAGE_SIZE < 2 ^ 32 := by
    rw [PAGE_SIZE]; omega
  have hpresent1 : ((((a &&& 0xFFFFF000) ||| 2) ||| 1) &&& PAGE_PRESENT) = 1 := by
    rw [PAGE_PRESENT, or_one_and_one]
  have hpresent2 : (((((v / 4096) * PAGE_SIZE &&& 0xFFFFF000) ||| 2) ||| 1) &&& PAGE_PRESENT)
      = 1 := by
    rw [PAGE_PRESENT, or_one_and_one]
  have hfff : v &&& 0xFFF = v % 4096 := by
    have h : (0xFFF : Nat) = 2 ^ 12 - 1 := by norm_num
    rw [h, Nat.and_pow_two_sub_one_eq_mod]
  constructor
  · rw [translate]
    simp only [hpde, hpresent1]
    rw [if_neg (by norm_num)]
    rw [entry_and_mask hal' h32, hpte]
    simp only [hpresent2]
    rw [if_neg (by norm_num)]
    rw [entry_and_mask halidx hidx32, hfff]
    have hsum : v / 4096 * PAGE_SIZE + v % 4096 = v := by
      simp only [PAGE_SIZE]
      omega
    rw [hsum]
  · rw [writableMapped]
    simp only [hpde, hpresent1]
    rw [entry_and_mask hal' h32, hpte]
    simp only [hpresent2]
    rw [PAGE_WRITABLE, or_two_or_one_and_two, or_two_or_one_and_two]
    norm_num

/-- Witness for C3: a machine with one free frame at 0x400000; after
setup_paging, address 0x123456 translates to itself with write permission. -/
theorem c3_witness :
    (alloc_page pagingDemo.frames).fst = some 0x400000 ∧
    translate (setup_paging pagingDemo) 0x123456 = some 0x123456 ∧
    writableMapped (setup_paging pagingDemo) 0x123456 = true := by
  have halloc : (alloc_page pagingDemo.frames).fst = some 0x400000 := by decide
  have h := c3_setup_paging_identity pagingDemo 0x400000 halloc (by decide) 0x123456
    (by norm_num)
  exact ⟨halloc, h.1, h.2⟩

/-! ### Multiboot memory-map parsing -/

theorem parse_entries_spec (mb : Nat → Nat) {stop off : Nat} {es : List memory_map_entry}
    (hdesc : EntriesDesc mb off stop es) :
    ∀ fuel, es.length < fuel → ∀ acc,
      parse_entries mb stop 24 off acc fuel
        = some (acc ++ (availOfEntries es).take (MAX_MEMORY_REGIONS - acc.length)) := by
  induction hdesc with
  | nil h =>
    intro fuel hfuel acc
    obtain ⟨f, rfl⟩ : ∃ f, fuel = f + 1 := ⟨fuel - 1, by omega⟩
    rw [parse_entries, if_neg h]
    simp [availOfEntries]
  | cons hlt ha hl ht hrest ih =>
    intro fuel hfuel acc
    obtain ⟨f, rfl⟩ : ∃ f, fuel = f + 1 := ⟨fuel - 1, by omega⟩
    simp only [List.length_cons] at hfuel
    rw [parse_entries, if_pos hlt]
    rename_i off' stop' e rest
    by_cases h1 : e.typ = 1
    · by_cases h2 : acc.length < MAX_MEMORY_REGIONS
      · rw [if_pos ⟨ht.trans h1, h2⟩, ha, hl, ih f (by omega)]
        have havail : availOfEntries (e :: rest)
            = ⟨e.addr, e.len⟩ :: availOfEntries rest := by
          simp [availOfEntries, List.filter_cons, h1]
        rw [havail]
        have hlen : (acc ++ [(⟨e.addr, e.len⟩ : MemoryRegion)]).length = acc.length + 1 := by
          simp
        rw [hlen]
        have htake : MAX_MEMORY_REGIONS - acc.length
            = (MAX_MEMORY_REGIONS - (acc.length + 1)) + 1 := by
          rw [MAX_MEMORY_REGIONS] at *
          omega
        rw [htake, List.take_succ_cons, List.append_assoc, List.singleton_append]
      · rw [if_neg (by intro hc; exact h2 hc.2), ih f (by omega)]
        have h0 : MAX_MEMORY_REGIONS - acc.length = 0 := by
          rw [MAX_MEMORY_REGIONS] at *
          omega
        rw [h0]
        simp
    · rw [if_neg (by intro hc; exact h1 (ht.symm.trans hc.1))]
      rw [ih f (by omega)]
      have havail : availOfEntries (e :: rest) = availOfEntries rest := by
        simp [availOfEntries, List.filter_cons, h1]
      rw [havail]

theorem parse_tags_spec (mb : Nat → Nat) {off : Nat} {tags : List TagDesc}
    (hdesc : BufDesc mb off tags) :
    ∀ fuel, tagsFuel tags ≤ fuel → ∀ acc,
      parse_tags mb off acc fuel
        = some (acc ++ (availRegions tags).take (MAX_MEMORY_REGIONS - acc.length)) := by
  induction hdesc with
  | last h =>
    intro fuel hfuel acc
    rw [tagsFuel] at hfuel
    obtain ⟨f, rfl⟩ : ∃ f, fuel = f + 1 := ⟨fuel - 1, by omega⟩
    rw [parse_tags, if_pos h]
    simp [availRegions]
  | other hty0 hty6 hrt hrs hrest ih =>
    intro fuel hfuel acc
    rw [tagsFuel] at hfuel
    obtain ⟨f, rfl⟩ : ∃ f, fuel = f + 1 := ⟨fuel - 1, by omega⟩
    rw [parse_tags, if_neg (by rw [hrt]; exact hty0)]
    rw [if_neg (by rw [hrt]; exact hty6)]
    rw [hrs]
    dsimp only
    have happ := ih f (by omega) acc
    rw [tagAdvance] at happ
    rw [happ]
    rw [availRegions]
  | mmap hrt hrs hes hentries hrest ihtags =>
    intro fuel hfuel acc
    rw [tagsFuel] at hfuel
    obtain ⟨f, rfl⟩ : ∃ f, fuel = f + 1 := ⟨fuel - 1, by omega⟩
    rw [parse_tags, if_neg (by rw [hrt]; norm_num)]
    rw [if_pos hrt, hrs, hes]
    rename_i off' sz es rest
    rw [parse_entries_spec mb hentries f (by omega) acc]
    dsimp only
    have happ := ihtags f (by omega) (acc ++ (availOfEntries es).take
      (MAX_MEMORY_REGIONS - acc.length))
    rw [tagAdvance] at happ
    rw [happ]
    rw [availRegions]
    rw [List.take_append_eq_append_take]
    have hlen : (acc ++ (availOfEntries es).take (MAX_MEMORY_REGIONS - acc.length)).length
        = acc.length + min (MAX_MEMORY_REGIONS - acc.length) (availOfEntries es).length := by
      simp
    rw [hlen]
    have harg : MAX_MEMORY_REGIONS
          - (acc.length + min (MAX_MEMORY_REGIONS - acc.length) (availOfEntries es).length)
        = MAX_MEMORY_REGIONS - acc.length - (availOfEntries es).length := by
      omega
    rw [harg, List.append_assoc]

/-- Claim C6: for every well-formed tag buffer, parse_memory_map returns
exactly the type-1 (available RAM) memory-map entries, in encounter order,
with their base and length copied; other entries are skipped and available
entries beyond the capacity of MAX_MEMORY_REGIONS = 32 are silently
dropped. -/
theorem c6_parse_memory_map_available (mb : Nat → Nat) (tags : List TagDesc) (fuel : Nat)
    (hdesc : BufDesc mb 8 tags) (hfuel : tagsFuel tags ≤ fuel) :
    parse_memory_map mb fuel = some ((availRegions tags).take MAX_MEMORY_REGIONS) := by
  rw [parse_memory_map, parse_tags_spec mb hdesc fuel hfuel []]
  simp

/-- Witness for C6: the concrete buffer with two available entries around a
reserved one parses to exactly those two regions, in order. -/
theorem c6_witness :
    parse_memory_map mbEx 10
      = some [⟨0x1000, 0x2000⟩, ⟨0x100000, 0x100000⟩] := by
  have hentries : EntriesDesc mbEx 24 96 mbExEntries := by
    refine EntriesDesc.cons (by decide) (by decide) (by decide) (by decide) ?_
    refine EntriesDesc.cons (by decide) (by decide) (by decide) (by decide) ?_
    refine EntriesDesc.cons (by decide) (by decide) (by decide) (by decide) ?_
    exact EntriesDesc.nil (by decide)
  have hdesc : BufDesc mbEx 8 mbExTags := by
    refine BufDesc.mmap (by decide) (by decide) (by decide) ?_ ?_
    · exact hentries
    · exact BufDesc.last (by decide)
  have h := c6_parse_memory_map_available mbEx mbExTags 10 hdesc (by decide)
  rw [h]
  decide

/-! ### Free-list chains -/

theorem chain_cons_inv {mem : Nat → BlockHeader} {hd x : Nat} {l : List Nat}
    (h : Chain mem hd (x :: l)) : hd = x ∧ x ≠ 0 ∧ Chain mem (mem x).next l := by
  cases h with
  | cons ha hl => exact ⟨rfl, ha, hl⟩

theorem chain_nil_inv {mem : Nat → BlockHeader} {hd : Nat} (h : Chain mem hd []) : hd = 0 := by
  cases h
  rfl

theorem chain_ne_zero {mem : Nat → BlockHeader} {a : Nat} {l : List Nat}
    (h : Chain mem a l) : ∀ x ∈ l, x ≠ 0 := by
  induction h with
  | nil => intro x hx; simp at hx
  | cons ha hl ih =>
    intro x hx
    rcases List.mem_cons.mp hx with rfl | hx
    · assumption
    · exact ih x hx

theorem chain_unique {mem : Nat → BlockHeader} {a : Nat} {l : List Nat}
    (h : Chain mem a l) : ∀ {l' : List Nat}, Chain mem a l' → l = l' := by
  induction h with
  | nil =>
    intro l' h'
    cases h' with
    | nil => rfl
    | cons ha _ => exact absurd rfl ha
  | cons ha hl ih =>
    intro l' h'
    cases h' with
    | nil => exact absurd rfl ha
    | cons ha' hl' => rw [ih hl']

theorem chain_suffix_of_mem {mem : Nat → BlockHeader} {b : Nat} {l : List Nat}
    (h : Chain mem b l) :
    ∀ {x : Nat}, x ∈ l → ∃ t, Chain mem x (x :: t) ∧ t.length < l.length := by
  induction h with
  | nil => intro x hx; simp at hx
  | cons ha hl ih =>
    intro x hx
    rcases List.mem_cons.mp hx with rfl | hx
    · exact ⟨_, Chain.cons ha hl, by simp⟩
    · obtain ⟨t, ht, hlen⟩ := ih hx
      refine ⟨t, ht, ?_⟩
      simp only [List.length_cons]
      omega

theorem chain_nodup {mem : Nat → BlockHeader} {a : Nat} {l : List Nat}
    (h : Chain mem a l) : l.Nodup := by
  induction h with
  | nil => exact List.nodup_nil
  | cons ha hl ih =>
    refine List.nodup_cons.mpr ⟨?_, ih⟩
    intro hmem
    obtain ⟨t, ht, hlen⟩ := chain_suffix_of_mem hl hmem
    have heq := chain_unique (Chain.cons ha hl) ht
    have hlen2 := congrArg List.length heq
    simp only [List.length_cons] at hlen2
    omega

theorem chain_update_not_mem {mem : Nat → BlockHeader} {p : Nat} {v : BlockHeader}
    {a : Nat} {l : List Nat} (h : Chain mem a l) (hp : p ∉ l) :
    Chain (Function.update mem p v) a l := by
  induction h with
  | nil => exact Chain.nil
  | cons ha hl ih =>
    rename_i a' l'
    have hne : a' ≠ p := fun he => hp (he ▸ List.mem_cons_self a' l')
    refine Chain.cons ha ?_
    have hupd : Function.update mem p v a' = mem a' := Function.update_noteq hne v mem
    rw [hupd]
    exact ih (fun hm => hp (List.mem_cons_of_mem _ hm))

theorem chain_congr_next {mem mem' : Nat → BlockHeader}
    (hnx : ∀ x, (mem' x).next = (mem x).next) {a : Nat} {l : List Nat}
    (h : Chain mem a l) : Chain mem' a l := by
  induction h with
  | nil => exact Chain.nil
  | cons ha hl ih =>
    refine Chain.cons ha ?_
    rw [hnx]
    exact ih

theorem lastOr_mem : ∀ (l : List Nat) (d : Nat), l ≠ [] → lastOr l d ∈ l
  | [], _, h => absurd rfl h
  | [x], d, _ => by
      simp only [lastOr]
      exact List.mem_singleton_self x
  | x :: y :: ys, d, _ => by
      rw [lastOr]
      exact List.mem_cons_of_mem x (lastOr_mem (y :: ys) x (by simp))

theorem chain_splice {mem : Nat → BlockHeader} {c : Nat} {l₂ : List Nat} :
    ∀ (l₁ : List Nat) (hd : Nat), l₁ ≠ [] → Chain mem hd (l₁ ++ c :: l₂) →
      (l₁ ++ c :: l₂).Nodup →
      Chain (Function.update mem (lastOr l₁ 0) ⟨(mem (lastOr l₁ 0)).size, (mem c).next⟩)
        hd (l₁ ++ l₂)
  | [], _, h, _, _ => absurd rfl h
  | [x], hd, _, hch, hnd => by
      rw [List.singleton_append] at hch hnd
      obtain ⟨rfl, ha, hl⟩ := chain_cons_inv hch
      obtain ⟨hnext, hc, hl₂⟩ := chain_cons_inv hl
      rw [List.singleton_append]
      simp only [lastOr]
      refine Chain.cons ha ?_
      rw [Function.update_same]
      have hx2 : hd ∉ l₂ := by
        intro hm
        exact (List.nodup_cons.mp hnd).1 (List.mem_cons_of_mem _ hm)
      exact chain_update_not_mem hl₂ hx2
  | x :: y :: ys, hd, _, hch, hnd => by
      rw [List.cons_append] at hch hnd
      obtain ⟨rfl, ha, hl⟩ := chain_cons_inv hch
      have hnd2 : ((y :: ys) ++ c :: l₂).Nodup := (List.nodup_cons.mp hnd).2
      have hrec := chain_splice (y :: ys) ((mem hd).next) (by simp) hl hnd2
      rw [List.cons_append]
      simp only [lastOr] at hrec ⊢
      refine Chain.cons ha ?_
      have hp_mem : lastOr ys y ∈ y :: ys := lastOr_mem (y :: ys) hd (by simp)
      have hx_ne : hd ≠ lastOr ys y := by
        intro he
        exact (List.nodup_cons.mp hnd).1 (he ▸ List.mem_append_left _ hp_mem)
      have hupd : Function.update mem (lastOr ys y)
          ⟨(mem (lastOr ys y)).size, (mem c).next⟩ hd = mem hd :=
        Function.update_noteq hx_ne _ _
      rw [hupd]
      exact hrec

/-! ### The kmalloc free-list walk -/

theorem kmallocGo_nofit {kernelEnd sz : Nat} {s : HeapState} {l : List Nat} :
    ∀ (curr prev fuel : Nat), Chain s.mem curr l →
      (∀ x ∈ l, (s.mem x).size < sz) → l.length < fuel →
      kmallocGo kernelEnd sz s prev curr fuel = some (carveBlock kernelEnd sz s) := by
  induction l with
  | nil =>
    intro curr prev fuel hch _ hf
    have h0 := chain_nil_inv hch
    subst h0
    obtain ⟨f, rfl⟩ : ∃ f, fuel = f + 1 := ⟨fuel - 1, by omega⟩
    rw [kmallocGo, if_neg (by simp)]
  | cons x xs ih =>
    intro curr prev fuel hch hsz hf
    obtain ⟨rfl, ha, hl⟩ := chain_cons_inv hch
    obtain ⟨f, rfl⟩ : ∃ f, fuel = f + 1 := ⟨fuel - 1, by omega⟩
    rw [kmallocGo, if_pos ha,
      if_neg (by have := hsz curr (List.mem_cons_self _ _); omega)]
    refine ih _ curr f hl (fun y hy => hsz y (List.mem_cons_of_mem _ hy)) ?_
    simp only [List.length_cons] at hf
    omega

theorem kmallocGo_found {kernelEnd sz : Nat} {s : HeapState} {c : Nat} {l₂ : List Nat}
    (hc : sz ≤ (s.mem c).size) :
    ∀ (l₁ : List Nat) (curr prev fuel : Nat), Chain s.mem curr (l₁ ++ c :: l₂) →
      (∀ x ∈ l₁, (s.mem x).size < sz) → l₁.length < fuel →
      kmallocGo kernelEnd sz s prev curr fuel
        = some (some ((c + 8) % 2 ^ 32), unlinkState s c (lastOr l₁ prev)) := by
  intro l₁
  induction l₁ with
  | nil =>
    intro curr prev fuel hch _ hf
    rw [List.nil_append] at hch
    obtain ⟨rfl, ha, hl⟩ := chain_cons_inv hch
    obtain ⟨f, rfl⟩ : ∃ f, fuel = f + 1 := ⟨fuel - 1, by omega⟩
    rw [kmallocGo, if_pos ha, if_pos hc, lastOr, unlinkState]
  | cons x xs ih =>
    intro curr prev fuel hch hsz hf
    rw [List.cons_append] at hch
    obtain ⟨rfl, ha, hl⟩ := chain_cons_inv hch
    obtain ⟨f, rfl⟩ : ∃ f, fuel = f + 1 := ⟨fuel - 1, by omega⟩
    rw [kmallocGo, if_pos ha,
      if_neg (by have := hsz curr (List.mem_cons_self _ _); omega)]
    rw [lastOr]
    refine ih _ curr f hl (fun y hy => hsz y (List.mem_cons_of_mem _ hy)) ?_
    simp only [List.length_cons] at hf
    omega

theorem kmallocGo_none_nofit {kernelEnd sz : Nat} {s : HeapState} {l : List Nat} :
    ∀ (curr prev fuel : Nat), Chain s.mem curr l →
      (∀ x ∈ l, (s.mem x).size < sz) → fuel ≤ l.length →
      kmallocGo kernelEnd sz s prev curr fuel = none := by
  induction l with
  | nil =>
    intro curr prev fuel _ _ hf
    simp only [List.length_nil] at hf
    have h0 : fuel = 0 := by omega
    subst h0
    rw [kmallocGo]
  | cons x xs ih =>
    intro curr prev fuel hch hsz hf
    obtain ⟨rfl, ha, hl⟩ := chain_cons_inv hch
    cases fuel with
    | zero => rw [kmallocGo]
    | succ f =>
      rw [kmallocGo, if_pos ha,
        if_neg (by have := hsz curr (List.mem_cons_self _ _); omega)]
      refine ih _ curr f hl (fun y hy => hsz y (List.mem_cons_of_mem _ hy)) ?_
      simp only [List.length_cons] at hf
      omega

theorem kmallocGo_none_found {kernelEnd sz : Nat} {s : HeapState} {c : Nat} {l₂ : List Nat} :
    ∀ (l₁ : List Nat) (curr prev fuel : Nat), Chain s.mem curr (l₁ ++ c :: l₂) →
      (∀ x ∈ l₁, (s.mem x).size < sz) → fuel ≤ l₁.length →
      kmallocGo kernelEnd sz s prev curr fuel = none := by
  intro l₁
  induction l₁ with
  | nil =>
    intro curr prev fuel _ _ hf
    simp only [List.length_nil] at hf
    have h0 : fuel = 0 := by omega
    subst h0
    rw [kmallocGo]
  | cons x xs ih =>
    intro curr prev fuel hch hsz hf
    rw [List.cons_append] at hch
    obtain ⟨rfl, ha, hl⟩ := chain_cons_inv hch
    cases fuel with
    | zero => rw [kmallocGo]
    | succ f =>
      rw [kmallocGo, if_pos ha,
        if_neg (by have := hsz curr (List.mem_cons_self _ _); omega)]
      refine ih _ curr f hl (fun y hy => hsz y (List.mem_cons_of_mem _ hy)) ?_
      simp only [List.length_cons] at hf
      omega

theorem exists_first_fit {sz : Nat} {mem : Nat → BlockHeader} :
    ∀ {l : List Nat}, (∃ x ∈ l, sz ≤ (mem x).size) →
      ∃ l₁ c l₂, l = l₁ ++ c :: l₂ ∧ (∀ x ∈ l₁, (mem x).size < sz) ∧ sz ≤ (mem c).size := by
  intro l
  induction l with
  | nil => intro h; simp at h
  | cons x xs ih =>
    intro h
    by_cases hx : sz ≤ (mem x).size
    · exact ⟨[], x, xs, by simp, by simp, hx⟩
    · have hxs : ∃ y ∈ xs, sz ≤ (mem y).size := by
        obtain ⟨y, hy, hfit⟩ := h
        rcases List.mem_cons.mp hy with rfl | hy
        · exact absurd hfit hx
        · exact ⟨y, hy, hfit⟩
      obtain ⟨l₁, c, l₂, hdec, hunfit, hfit⟩ := ih hxs
      refine ⟨x :: l₁, c, l₂, by rw [hdec, List.cons_append], ?_, hfit⟩
      intro y hy
      rcases List.mem_cons.mp hy with rfl | hy
      · omega
      · exact hunfit y hy

/-! ### kmalloc case analysis and the heap invariant -/

theorem ALIGN8_mod8 (x : Nat) : ALIGN8 x % 8 = 0 := by
  rw [ALIGN8]
  have h8 : (8 : Nat) = 2 ^ 3 := by norm_num
  rw [h8, ← Nat.and_pow_two_sub_one_eq_mod, Nat.and_assoc]
  have hm : (0xFFFFFFF8 : Nat) &&& (2 ^ 3 - 1) = 0 := by decide
  rw [hm, Nat.and_zero]

theorem mod32_mod8 (x : Nat) : x % 2 ^ 32 % 8 = x % 8 :=
  Nat.mod_mod_of_dvd x (by norm_num)

theorem unlinkState_mem_size (s : HeapState) (c p x : Nat) :
    ((unlinkState s c p).mem x).size = (s.mem x).size := by
  rw [unlinkState]
  by_cases hp : p ≠ 0
  · rw [if_pos hp]
    dsimp only
    by_cases hx : x = p
    · subst hx
      rw [Function.update_same]
    · rw [Function.update_noteq hx]
  · rw [if_neg hp]

theorem unlinkState_hc (s : HeapState) (c p : Nat) :
    (unlinkState s c p).heap_current = s.heap_current := by
  rw [unlinkState]
  by_cases hp : p ≠ 0
  · rw [if_pos hp]
  · rw [if_neg hp]

theorem unlinkState_carved (s : HeapState) (c p : Nat) :
    (unlinkState s c p).carved = s.carved := by
  rw [unlinkState]
  by_cases hp : p ≠ 0
  · rw [if_pos hp]
  · rw [if_neg hp]

theorem kmalloc_cases {kernelEnd size fuel : Nat} {s s' : HeapState} {r : Option Nat}
    {l : List Nat} (hch : Chain s.mem s.free_list l)
    (h : kmalloc kernelEnd size s fuel = some (r, s')) :
    (∃ c l₁ l₂, l = l₁ ++ c :: l₂ ∧ ALIGN8 size ≤ (s.mem c).size ∧
        (∀ x ∈ l₁, (s.mem x).size < ALIGN8 size) ∧
        r = some ((c + 8) % 2 ^ 32) ∧ s' = unlinkState s c (lastOr l₁ 0)) ∨
    ((∀ x ∈ l, (s.mem x).size < ALIGN8 size) ∧
        (r, s') = carveBlock kernelEnd (ALIGN8 size) s) := by
  rw [kmalloc] at h
  by_cases hex : ∃ x ∈ l, ALIGN8 size ≤ (s.mem x).size
  · obtain ⟨l₁, c, l₂, hdec, hunfit, hfit⟩ := exists_first_fit hex
    left
    have hch2 : Chain s.mem s.free_list (l₁ ++ c :: l₂) := hdec ▸ hch
    have hfuel : l₁.length < fuel := by
      by_contra hcon
      push_neg at hcon
      rw [kmallocGo_none_found l₁ s.free_list 0 fuel hch2 hunfit hcon] at h
      exact Option.noConfusion h
    rw [kmallocGo_found hfit l₁ s.free_list 0 fuel hch2 hunfit hfuel] at h
    have h2 := Option.some.inj h
    exact ⟨c, l₁, l₂, hdec, hfit, hunfit,
      (congrArg Prod.fst h2).symm, (congrArg Prod.snd h2).symm⟩
  · push_neg at hex
    right
    have hfuel : l.length < fuel := by
      by_contra hcon
      push_neg at hcon
      rw [kmallocGo_none_nofit s.free_list 0 fuel hch hex hcon] at h
      exact Option.noConfusion h
    rw [kmallocGo_nofit s.free_list 0 fuel hch hex hfuel] at h
    exact ⟨hex, (Option.some.inj h).symm⟩

theorem heapInv_kmalloc {kernelEnd size fuel : Nat} {s s' : HeapState} {r : Option Nat}
    (hinv : HeapInv s) (h : kmalloc kernelEnd size s fuel = some (r, s')) :
    HeapInv s' ∧ ∀ p, r = some p → p % 8 = 0 := by
  obtain ⟨h8, h32, hcv, l, hch, hsub⟩ := hinv
  rcases kmalloc_cases hch h with
    ⟨c, l₁, l₂, hdec, hfit, hunfit, hr, hs⟩ | ⟨hunfit, hcs⟩
  · -- the free-list reuse branch
    subst hs
    have hcmem : c ∈ l := by
      rw [hdec]; exact List.mem_append_right _ (List.mem_cons_self _ _)
    have hccv := hcv c (hsub c hcmem)
    constructor
    · refine ⟨by rw [unlinkState_hc]; exact h8, by rw [unlinkState_hc]; exact h32, ?_, ?_⟩
      · intro a ha
        rw [unlinkState_carved] at ha
        have hacv := hcv a ha
        exact ⟨hacv.1, hacv.2.1, by rw [unlinkState_mem_size]; exact hacv.2.2⟩
      · cases l₁ with
        | nil =>
          rw [List.nil_append] at hdec
          have hch2 : Chain s.mem s.free_list (c :: l₂) := hdec ▸ hch
          obtain ⟨hfl, hc0, hl⟩ := chain_cons_inv hch2
          refine ⟨l₂, ?_, ?_⟩
          · rw [unlinkState, if_neg (by simp [lastOr])]
            exact hl
          · intro a ha
            rw [unlinkState_carved]
            exact hsub a (by rw [hdec]; exact List.mem_cons_of_mem _ ha)
        | cons x xs =>
          have hch2 : Chain s.mem s.free_list ((x :: xs) ++ c :: l₂) := hdec ▸ hch
          have hlast_mem : lastOr (x :: xs) 0 ∈ x :: xs := lastOr_mem _ _ (by simp)
          have hlast_ne : lastOr (x :: xs) 0 ≠ 0 := by
            apply chain_ne_zero hch2
            exact List.mem_append_left _ hlast_mem
          refine ⟨(x :: xs) ++ l₂, ?_, ?_⟩
          · rw [unlinkState, if_pos hlast_ne]
            exact chain_splice (x :: xs) s.free_list (by simp) hch2 (chain_nodup hch2)
          · intro a ha
            rw [unlinkState_carved]
            apply hsub
            rw [hdec]
            rcases List.mem_append.mp ha with h1 | h1
            · exact List.mem_append_left _ h1
            · exact List.mem_append_right _ (List.mem_cons_of_mem _ h1)
    · intro p hp
      rw [hr] at hp
      have hpe : p = (c + 8) % 2 ^ 32 := (Option.some.inj hp).symm
      rw [hpe, mod32_mod8, Nat.add_mod, hccv.1]
  · -- the carve branch
    rw [carveBlock] at hcs
    by_cases hb : KERNEL_HEAP_END kernelEnd
        < (s.heap_current + (8 + ALIGN8 size) % 2 ^ 32) % 2 ^ 32
    · rw [if_pos hb] at hcs
      have hrn : r = none := congrArg Prod.fst hcs
      have hsn : s' = s := congrArg Prod.snd hcs
      subst hsn
      exact ⟨⟨h8, h32, hcv, l, hch, hsub⟩,
        fun p hp => by rw [hrn] at hp; exact Option.noConfusion hp⟩
    · rw [if_neg hb] at hcs
      have hrs : r = some ((s.heap_current + 8) % 2 ^ 32) := congrArg Prod.fst hcs
      have hss : s' = { s with
          mem := Function.update s.mem s.heap_current
            ⟨ALIGN8 size, (s.mem s.heap_current).next⟩,
          heap_current := (s.heap_current + (8 + ALIGN8 size) % 2 ^ 32) % 2 ^ 32,
          carved := s.heap_current :: s.carved } := congrArg Prod.snd hcs
      subst hss
      constructor
      · refine ⟨?_, ?_, ?_, ?_⟩
        · show (s.heap_current + (8 + ALIGN8 size) % 2 ^ 32) % 2 ^ 32 % 8 = 0
          rw [mod32_mod8, Nat.add_mod, mod32_mod8, Nat.add_mod 8, ALIGN8_mod8, h8]
        · exact Nat.mod_lt _ (by norm_num)
        · intro a ha
          have ha' : a ∈ s.heap_current :: s.carved := ha
          rcases List.mem_cons.mp ha' with rfl | ha2
          · exact ⟨h8, h32, by
              show (Function.update s.mem s.heap_current
                ⟨ALIGN8 size, (s.mem s.heap_current).next⟩ s.heap_current).size % 8 = 0
              rw [Function.update_same]
              exact ALIGN8_mod8 size⟩
          · have hacv := hcv a ha2
            refine ⟨hacv.1, hacv.2.1, ?_⟩
            show (Function.update s.mem s.heap_current
              ⟨ALIGN8 size, (s.mem s.heap_current).next⟩ a).size % 8 = 0
            by_cases hax : a = s.heap_current
            · subst hax
              rw [Function.update_same]
              exact ALIGN8_mod8 size
            · rw [Function.update_noteq hax]
              exact hacv.2.2
        · refine ⟨l, ?_, ?_⟩
          · refine chain_congr_next ?_ hch
            intro x
            dsimp only
            by_cases hx : x = s.heap_current
            · subst hx
              rw [Function.update_same]
            · rw [Function.update_noteq hx]
          · intro a ha
            exact List.mem_cons_of_mem _ (hsub a ha)
      · intro p hp
        rw [hrs] at hp
        have hpe : p = (s.heap_current + 8) % 2 ^ 32 := (Option.some.inj hp).symm
        rw [hpe, mod32_mod8, Nat.add_mod, h8]

theorem kfree_eq {ptr : Nat} (hp : ptr ≠ 0) (s : HeapState) :
    kfree ptr s = { s with
      mem := Function.update s.mem (sub32 ptr 8) ⟨(s.mem (sub32 ptr 8)).size, s.free_list⟩,
      free_list := sub32 ptr 8 } := by
  rw [kfree, if_neg hp]

theorem heapInv_of_reachable {kernelEnd : Nat} (h8 : kernelEnd % 8 = 0)
    (h32 : kernelEnd < 2 ^ 32) {s : HeapState} (hr : ReachableHeap kernelEnd s) :
    HeapInv s := by
  induction hr with
  | init m =>
    exact ⟨h8, h32, by intro a ha; simp at ha, [], Chain.nil, by intro a ha; simp at ha⟩
  | step_malloc size fuel _ hm ih => exact (heapInv_kmalloc ih hm).1
  | step_free ptr hre hvf ih =>
    rename_i s0
    obtain ⟨hp0, hb0, hbc, hnotin⟩ := hvf
    obtain ⟨hh8, hh32, hcv, l, hch, hsub⟩ := ih
    rw [kfree_eq hp0]
    refine ⟨hh8, hh32, ?_, ?_⟩
    · intro a ha
      have ha2 : a ∈ s0.carved := ha
      have hacv := hcv a ha2
      refine ⟨hacv.1, hacv.2.1, ?_⟩
      show (Function.update s0.mem (sub32 ptr 8)
        ⟨(s0.mem (sub32 ptr 8)).size, s0.free_list⟩ a).size % 8 = 0
      by_cases hax : a = sub32 ptr 8
      · rw [hax, Function.update_same]
        exact (hcv _ hbc).2.2
      · rw [Function.update_noteq hax]
        exact hacv.2.2
    · have hbl : sub32 ptr 8 ∉ l := hnotin l hch
      refine ⟨sub32 ptr 8 :: l, ?_, ?_⟩
      · show Chain (Function.update s0.mem (sub32 ptr 8)
          ⟨(s0.mem (sub32 ptr 8)).size, s0.free_list⟩) (sub32 ptr 8) (sub32 ptr 8 :: l)
        refine Chain.cons hb0 ?_
        rw [Function.update_same]
        exact chain_update_not_mem hch hbl
      · intro a ha
        show a ∈ s0.carved
        rcases List.mem_cons.mp ha with h1 | ha2
        · rw [h1]
          exact hbc
        · exact hsub a ha2

/-! ### The heap claims -/

theorem sub32_add8 {c : Nat} (h : c + 8 < 2 ^ 32) : sub32 (c + 8) 8 = c := by
  rw [sub32]
  have h8 : (8 : Nat) % 2 ^ 32 = 8 := by norm_num
  rw [h8]
  have he : c + 8 + 2 ^ 32 - 8 = c + 2 ^ 32 := by omega
  rw [he, Nat.add_mod_right, Nat.mod_eq_of_lt (by omega)]

theorem kmalloc_head_fit {kernelEnd size : Nat} {s : HeapState} (f : Nat)
    (h0 : s.free_list ≠ 0) (hfit : ALIGN8 size ≤ (s.mem s.free_list).size) :
    kmalloc kernelEnd size s (f + 1)
      = some (some ((s.free_list + 8) % 2 ^ 32),
          { s with free_list := (s.mem s.free_list).next }) := by
  rw [kmalloc, kmallocGo, if_pos h0, if_pos hfit, if_neg (by simp)]

theorem kmallocGo_none_result {kernelEnd sz : Nat} {s : HeapState} :
    ∀ (fuel prev curr : Nat) {s' : HeapState},
      kmallocGo kernelEnd sz s prev curr fuel = some (none, s') → s' = s := by
  intro fuel
  induction fuel with
  | zero =>
    intro prev curr s' h
    rw [kmallocGo] at h
    exact Option.noConfusion h
  | succ f ih =>
    intro prev curr s' h
    rw [kmallocGo] at h
    by_cases hc : curr ≠ 0
    · rw [if_pos hc] at h
      by_cases hfit : sz ≤ (s.mem curr).size
      · rw [if_pos hfit] at h
        have h2 := Option.some.inj h
        exact absurd (congrArg Prod.fst h2) (by simp)
      · rw [if_neg hfit] at h
        exact ih curr (s.mem curr).next h
    · rw [if_neg hc] at h
      have h2 := Option.some.inj h
      rw [carveBlock] at h2
      by_cases hb : KERNEL_HEAP_END kernelEnd < (s.heap_current + (8 + sz) % 2 ^ 32) % 2 ^ 32
      · rw [if_pos hb] at h2
        exact (congrArg Prod.snd h2).symm
      · rw [if_neg hb] at h2
        exact absurd (congrArg Prod.fst h2) (by simp)

/-- Claim C9: whenever kmalloc returns NULL, the heap state is unchanged:
the free list, the heap cursor and every block header hold exactly the
values they had before the call. -/
theorem c9_kmalloc_null_preserves_state (kernelEnd size fuel : Nat) (s s' : HeapState)
    (h : kmalloc kernelEnd size s fuel = some (none, s')) : s' = s := by
  rw [kmalloc] at h
  exact kmallocGo_none_result fuel 0 s.free_list h

/-- Witness for C9: a heap whose cursor is at the arena end returns NULL for
an 8-byte request and is returned unchanged. -/
theorem c9_witness :
    kmalloc 0x100000 8 heapFull 1 = some (none, heapFull) ∧ heapFull = heapFull := by
  have hEq : kmalloc 0x100000 8 heapFull 1 = some (none, heapFull) := by rfl
  exact ⟨hEq, c9_kmalloc_null_preserves_state 0x100000 8 1 heapFull heapFull hEq⟩

/-- Claim C10: kfree(NULL) is a no-op: the state — free list head, heap
cursor and every block header — is returned unchanged. -/
theorem c10_kfree_null_noop (s : HeapState) : kfree 0 s = s := by
  rw [kfree, if_pos rfl]

/-- Claim C4 (amended): when the 32-bit sum heap_current + 8 + rounded size
does not overflow, kmalloc with no fitting free block and a request that
does not fit below the arena end returns NULL and leaves the state exactly
as it was.  (When the 32-bit sum overflows, the arena-end comparison is
performed on the wrapped value and kmalloc can return a pointer instead;
see the counterexample.) -/
theorem c4_kmalloc_oom (kernelEnd size fuel : Nat) (s : HeapState) (l : List Nat)
    (hch : Chain s.mem s.free_list l)
    (hunfit : ∀ x ∈ l, (s.mem x).size < ALIGN8 size)
    (hfuel : l.length < fuel)
    (hnoof : s.heap_current + 8 + ALIGN8 size < 2 ^ 32)
    (hbig : KERNEL_HEAP_END kernelEnd < s.heap_current + 8 + ALIGN8 size) :
    kmalloc kernelEnd size s fuel = some (none, s) := by
  rw [kmalloc, kmallocGo_nofit s.free_list 0 fuel hch hunfit hfuel, carveBlock]
  have h1 : (8 + ALIGN8 size) % 2 ^ 32 = 8 + ALIGN8 size := Nat.mod_eq_of_lt (by omega)
  rw [h1]
  have h2 : (s.heap_current + (8 + ALIGN8 size)) % 2 ^ 32
      = s.heap_current + 8 + ALIGN8 size := by
    rw [Nat.mod_eq_of_lt (by omega)]
    omega
  rw [h2, if_pos hbig]

/-- Witness for C4: with the free list empty and the cursor at the heap
start, a 2 MiB request does not fit in the 1 MiB arena and kmalloc returns
NULL with the state unchanged. -/
theorem c4_witness :
    kmalloc 0x100000 0x200000 heapInit0 1 = some (none, heapInit0) :=
  c4_kmalloc_oom 0x100000 0x200000 1 heapInit0 [] Chain.nil
    (by intro x hx; simp at hx) (by norm_num) (by decide) (by decide)

/-- Counterexample for C4 as stated: the free list is empty (so no free
block fits) and the rounded request plus header does not fit between the
cursor and the arena end — in plain arithmetic — yet kmalloc returns a
pointer, because the 32-bit sum 0x100000 + 8 + ALIGN8 0xFFFFFFF0 wraps
below the arena end. -/
theorem c4_counterexample :
    heapInit0.free_list = 0 ∧
    KERNEL_HEAP_END 0x100000 < heapInit0.heap_current + 8 + ALIGN8 0xFFFFFFF0 ∧
    (kmalloc 0x100000 0xFFFFFFF0 heapInit0 1).map Prod.fst = some (some 0x100008) := by
  refine ⟨rfl, by decide, by decide⟩

/-- Claim C7: in every reachable heap state (with the heap base, the
link-time `kernel_end`, 8-aligned — the linker script aligns it to 4096),
every stored block size is a multiple of 8, and every non-NULL pointer
kmalloc returns is 8-byte aligned. -/
theorem c7_heap_alignment (kernelEnd : Nat) (h8 : kernelEnd % 8 = 0)
    (h32 : kernelEnd < 2 ^ 32) (s : HeapState) (hr : ReachableHeap kernelEnd s) :
    (∀ a ∈ s.carved, (s.mem a).size % 8 = 0) ∧
    (∀ size fuel p s', kmalloc kernelEnd size s fuel = some (some p, s') → p % 8 = 0) := by
  have hinv := heapInv_of_reachable h8 h32 hr
  refine ⟨fun a ha => (hinv.2.2.1 a ha).2.2, fun size fuel p s' h => ?_⟩
  exact (heapInv_kmalloc hinv h).2 p rfl

/-- Witness for C7: from the boot heap at kernel_end = 0x100000, a 1-byte
request returns the 8-aligned pointer 0x100008. -/
theorem c7_witness : (0x100000 : Nat) % 8 = 0 ∧ (0x100008 : Nat) % 8 = 0 := by
  have h := c7_heap_alignment 0x100000 (by norm_num) (by norm_num)
    ⟨0x100000, 0, fun _ => ⟨0, 0⟩, []⟩ (ReachableHeap.init (fun _ => ⟨0, 0⟩))
  exact ⟨by norm_num, h.2 1 1 0x100008 heapAfter8 (by rfl)⟩

/-- Claim C8: if kmalloc(size) returned p, then after kfree(p) the next
kmalloc(size) returns p again: the freed block sits at the head of the free
list, its stored size still fits the rounded request, so first-fit reuses it
before carving.  (Well-formedness side conditions: the free list is a
finite chain of 32-bit headers and the cursor is a nonzero 32-bit value.) -/
theorem c8_free_then_realloc_reuses (kernelEnd size fuel fuel2 : Nat) (s0 s1 : HeapState)
    (p : Nat) (l : List Nat)
    (hch : Chain s0.mem s0.free_list l)
    (hnodes : ∀ x ∈ l, x + 8 < 2 ^ 32)
    (hhc0 : s0.heap_current ≠ 0)
    (hhc32 : s0.heap_current + 8 < 2 ^ 32)
    (h1 : kmalloc kernelEnd size s0 fuel = some (some p, s1))
    (hf2 : 0 < fuel2) :
    ∃ s3, kmalloc kernelEnd size (kfree p s1) fuel2 = some (some p, s3) := by
  have key : ∃ c, p = (c + 8) % 2 ^ 32 ∧ c ≠ 0 ∧ c + 8 < 2 ^ 32 ∧
      ALIGN8 size ≤ (s1.mem c).size := by
    rcases kmalloc_cases hch h1 with
      ⟨c, l₁, l₂, hdec, hfit, hunfit, hr, hs⟩ | ⟨hunfit, hcs⟩
    · have hcmem : c ∈ l := by
        rw [hdec]
        exact List.mem_append_right _ (List.mem_cons_self _ _)
      refine ⟨c, Option.some.inj hr, chain_ne_zero hch c hcmem, hnodes c hcmem, ?_⟩
      rw [hs, unlinkState_mem_size]
      exact hfit
    · rw [carveBlock] at hcs
      by_cases hb : KERNEL_HEAP_END kernelEnd
          < (s0.heap_current + (8 + ALIGN8 size) % 2 ^ 32) % 2 ^ 32
      · rw [if_pos hb] at hcs
        exact absurd (congrArg Prod.fst hcs) (by simp)
      · rw [if_neg hb] at hcs
        have hr2 : some p = some ((s0.heap_current + 8) % 2 ^ 32) := congrArg Prod.fst hcs
        have hs2 : s1 = _ := congrArg Prod.snd hcs
        refine ⟨s0.heap_current, Option.some.inj hr2, hhc0, hhc32, ?_⟩
        rw [hs2]
        show ALIGN8 size ≤ (Function.update s0.mem s0.heap_current
          ⟨ALIGN8 size, (s0.mem s0.heap_current).next⟩ s0.heap_current).size
        rw [Function.update_same]
  obtain ⟨c, hp, hc0, hc32, hsize⟩ := key
  have hpc : p = c + 8 := by rw [hp, Nat.mod_eq_of_lt hc32]
  have hpne : p ≠ 0 := by omega
  have hsubc : sub32 p 8 = c := by rw [hpc]; exact sub32_add8 hc32
  have hstep : kfree p s1 = freedState s1 c := by
    rw [kfree_eq hpne, hsubc, freedState]
  obtain ⟨f2, rfl⟩ : ∃ f2, fuel2 = f2 + 1 := ⟨fuel2 - 1, by omega⟩
  rw [hstep]
  have h0f : (freedState s1 c).free_list ≠ 0 := hc0
  have hfitf : ALIGN8 size ≤ ((freedState s1 c).mem (freedState s1 c).free_list).size := by
    show ALIGN8 size ≤ (Function.update s1.mem c ⟨(s1.mem c).size, s1.free_list⟩ c).size
    rw [Function.update_same]
    exact hsize
  have hptr : ((freedState s1 c).free_list + 8) % 2 ^ 32 = p := by
    show (c + 8) % 2 ^ 32 = p
    rw [Nat.mod_eq_of_lt hc32, hpc]
  refine ⟨{ freedState s1 c with
    free_list := ((freedState s1 c).mem (freedState s1 c).free_list).next }, ?_⟩
  rw [kmalloc_head_fit f2 h0f hfitf, hptr]

/-- Witness for C8: carve a block for an 8-byte request, free it, request
8 bytes again — the same pointer 0x100008 comes back. -/
theorem c8_witness :
    kmalloc 0x100000 8 heapInit0 1 = some (some 0x100008, heapAfter8) ∧
    ∃ s3, kmalloc 0x100000 8 (kfree 0x100008 heapAfter8) 1 = some (some 0x100008, s3) := by
  have h1 : kmalloc 0x100000 8 heapInit0 1 = some (some 0x100008, heapAfter8) := by rfl
  refine ⟨h1, ?_⟩
  exact c8_free_then_realloc_reuses 0x100000 8 1 1 heapInit0 heapAfter8 0x100008 []
    Chain.nil (by intro x hx; simp at hx) (by norm_num [heapInit0])
    (by norm_num [heapInit0]) h1 (by norm_num)

end GeeOS
